import Mathlib

/-!
Verification of the path-matcher subsystem (`src/lib/src/matchers.rs`) and of
the snapshot/checkout contract of the working-copy engine of the `jj`
repository, against its natural-language specification.

Paths are repository-relative component lists (`repo_path.rs` is not among the
sources; its interface is modelled from the spec: a `RepoPath` is an ordered
sequence of components, the root is the empty sequence). All hash maps and hash
sets of the Rust code are modelled extensionally: sets of components as
`Finset String`, maps as functions to `Option _` (`none` = key absent), and
hash-set iteration as iteration over an arbitrary list of elements.
-/

namespace Jj

/-- Modelled from the spec: a path component, compared as a plain string. -/
abbrev RepoPathComponent := String

/-- Modelled from the spec: a `RepoPath` is an ordered sequence of non-empty
components; the root is the empty sequence. -/
abbrev RepoPath := List String

/-- Modelled from the spec: `RepoPath::is_root` holds exactly of the empty
component sequence. -/
def RepoPath.is_root (p : RepoPath) : Bool := p.isEmpty

/-- Modelled from the spec: `RepoPath::split` returns the parent directory and
the basename of a non-root path, and `None` on the root. -/
def RepoPath.split : RepoPath → Option (RepoPath × String)
  | [] => none
  | c :: rest =>
    match RepoPath.split rest with
    | none => some ([], c)
    | some (d, b) => some (c :: d, b)

theorem RepoPath.split_nil : RepoPath.split [] = none := rfl

theorem RepoPath.split_concat (d : RepoPath) (b : String) :
    RepoPath.split (d ++ [b]) = some (d, b) := by
  induction d with
  | nil => rfl
  | cons c rest ih => simp [RepoPath.split, ih]

theorem RepoPath.split_eq_none {p : RepoPath} : RepoPath.split p = none ↔ p = [] := by
  cases p with
  | nil => simp [RepoPath.split]
  | cons c rest =>
    simp only [RepoPath.split]
    cases h : RepoPath.split rest <;> simp

theorem RepoPath.eq_concat_of_split {p d : RepoPath} {b : String}
    (h : RepoPath.split p = some (d, b)) : p = d ++ [b] := by
  induction p generalizing d b with
  | nil => simp [RepoPath.split] at h
  | cons c rest ih =>
    simp only [RepoPath.split] at h
    cases hr : RepoPath.split rest with
    | none =>
      rw [hr] at h
      have hrest : rest = [] := RepoPath.split_eq_none.mp hr
      simp at h
      simp [hrest, ← h.1, ← h.2]
    | some db =>
      rw [hr] at h
      obtain ⟨d0, b0⟩ := db
      simp at h
      have := ih hr
      simp [← h.1, ← h.2, this]

/-- Mirrors `VisitDirs` from `matchers.rs`. -/
inductive VisitDirs where
  | all
  | set (s : Finset String)
deriving DecidableEq

/-- Mirrors `VisitFiles` from `matchers.rs`. -/
inductive VisitFiles where
  | all
  | set (s : Finset String)
deriving DecidableEq

/-- Mirrors `Visit` from `matchers.rs`: either everything in the directory is
guaranteed to match, or explicit selectors for subdirectories and files. -/
inductive Visit where
  | allRecursively
  | some (dirs : VisitDirs) (files : VisitFiles)
deriving DecidableEq

/-- Mirrors `Visit::nothing()`. -/
def Visit.nothing : Visit := Visit.some (VisitDirs.set ∅) (VisitFiles.set ∅)

/-- Pointwise update of a map modelled as a function into `Option`. -/
def mapUpdate (m : RepoPath → Option (Finset String)) (k : RepoPath) (v : Finset String) :
    RepoPath → Option (Finset String) :=
  fun p => if p = k then Option.some v else m p

/-- Mirrors the `Dirs` helper of `matchers.rs`: for each directory, which
subdirectories and which files of it need to be visited. -/
structure Dirs where
  dirs : RepoPath → Option (Finset String)
  files : RepoPath → Option (Finset String)

/-- Mirrors `Dirs::new()`. -/
def Dirs.new : Dirs := ⟨fun _ => none, fun _ => none⟩

/-- Loop body of `Dirs::add_dir`: `self.dirs.entry(dir.clone()).or_default()`
followed by the optional `children.insert(child)`. -/
def Dirs.addChild (s : Dirs) (dir : RepoPath) (maybeChild : Option String) : Dirs :=
  let children0 := (s.dirs dir).getD ∅
  let children := match maybeChild with
    | Option.some child => insert child children0
    | none => children0
  { s with dirs := mapUpdate s.dirs dir children }

/-- Mirrors the loop of `Dirs::add_dir`. The Rust loop repeatedly strips the
last component with `dir.split()`; here the recursion runs over the reversed
component list `rdir` (so the current directory is `rdir.reverse` and
`dir.split()` becomes head/tail), which keeps the recursion structural. At each
step the entry for the current directory is created if absent, the child
component recorded so far is inserted, and the loop stops early when the entry
was already present. -/
def Dirs.addDirLoop (s : Dirs) (rdir : List String) (maybeChild : Option String) : Dirs :=
  let dir := rdir.reverse
  let wasPresent := (s.dirs dir).isSome
  let s1 := Dirs.addChild s dir maybeChild
  if wasPresent then s1
  else
    match rdir with
    | [] => s1
    | newChild :: newRdir => Dirs.addDirLoop s1 newRdir (Option.some newChild)

/-- Mirrors `Dirs::add_dir`. -/
def Dirs.add_dir (s : Dirs) (dir : RepoPath) : Dirs :=
  Dirs.addDirLoop s dir.reverse none

/-- Mirrors `Dirs::add_file`; the `panic!("got empty filename")` on a root path
is modelled by returning `none`. -/
def Dirs.add_file (s : Dirs) (file : RepoPath) : Option Dirs :=
  match RepoPath.split file with
  | none => none
  | Option.some (dir, basename) =>
    let s1 := Dirs.add_dir s dir
    Option.some
      { s1 with files := mapUpdate s1.files dir (insert basename ((s1.files dir).getD ∅)) }

/-- Mirrors `Dirs::get_dirs`. -/
def Dirs.get_dirs (s : Dirs) (dir : RepoPath) : Finset String := (s.dirs dir).getD ∅

/-- Mirrors `Dirs::get_files`. -/
def Dirs.get_files (s : Dirs) (dir : RepoPath) : Finset String := (s.files dir).getD ∅

/-- Mirrors `NothingMatcher::matches`. -/
def NothingMatcher.matches (_file : RepoPath) : Bool := false

/-- Mirrors `NothingMatcher::visit`. -/
def NothingMatcher.visit (_dir : RepoPath) : Visit := Visit.nothing

/-- Mirrors `EverythingMatcher::matches`. -/
def EverythingMatcher.matches (_file : RepoPath) : Bool := true

/-- Mirrors `EverythingMatcher::visit`. -/
def EverythingMatcher.visit (_dir : RepoPath) : Visit := Visit.allRecursively

/-- Mirrors `FilesMatcher` (the `HashSet<RepoPath>` of files is modelled as a
list of its elements). -/
structure FilesMatcher where
  files : List RepoPath
  dirs : Dirs

/-- Mirrors `FilesMatcher::new`: add each listed file to a fresh `Dirs`; the
construction is fallible because `Dirs::add_file` panics on the root path. -/
def FilesMatcher.new (files : List RepoPath) : Option FilesMatcher :=
  match files.foldl (fun acc f => acc.bind (fun s => Dirs.add_file s f)) (Option.some Dirs.new) with
  | none => none
  | Option.some d => Option.some ⟨files, d⟩

/-- Mirrors `FilesMatcher::matches`: set membership. -/
def FilesMatcher.matches (m : FilesMatcher) (file : RepoPath) : Bool :=
  decide (file ∈ m.files)

/-- Mirrors `FilesMatcher::visit`: always an explicit selector pair. -/
def FilesMatcher.visit (m : FilesMatcher) (dir : RepoPath) : Visit :=
  Visit.some (VisitDirs.set (m.dirs.get_dirs dir)) (VisitFiles.set (m.dirs.get_files dir))

/-- Mirrors `PrefixMatcher` (the `BTreeSet<RepoPath>` of prefixes is modelled
as a list of its elements). -/
structure PrefixMatcher where
  prefixes : List RepoPath
  dirs : Dirs

/-- Loop body of `PrefixMatcher::new`: the prefix is added as a directory, and
as a file as well when it is not the root. Since a non-root path always splits,
`Dirs::add_file` cannot fail here and the `getD` fallback is dead code. -/
def PrefixMatcher.addPrefixStep (s : Dirs) (p : RepoPath) : Dirs :=
  let s1 := Dirs.add_dir s p
  if p.is_root then s1 else (Dirs.add_file s1 p).getD s1

/-- Mirrors `PrefixMatcher::new`. -/
def PrefixMatcher.new (prefixes : List RepoPath) : PrefixMatcher :=
  ⟨prefixes, prefixes.foldl PrefixMatcher.addPrefixStep Dirs.new⟩

/-- Mirrors `PrefixMatcher::matches`: try every take-`i` truncation of the
file's components (`RepoPath::from_components(components[0..i])`) for
membership in the prefix set. -/
def PrefixMatcher.matches (m : PrefixMatcher) (file : RepoPath) : Bool :=
  (List.range (file.length + 1)).any (fun i => decide (file.take i ∈ m.prefixes))

/-- Mirrors `PrefixMatcher::visit`. -/
def PrefixMatcher.visit (m : PrefixMatcher) (dir : RepoPath) : Visit :=
  if m.matches dir then Visit.allRecursively
  else Visit.some (VisitDirs.set (m.dirs.get_dirs dir)) (VisitFiles.set (m.dirs.get_files dir))

example : (PrefixMatcher.new [["foo", "bar"]]).matches ["foo", "bar", "baz"] = true := by decide
example : (PrefixMatcher.new [["foo", "bar"]]).matches ["foo"] = false := by decide
example : (PrefixMatcher.new [["foo", "bar"]]).matches ["bar", "foo", "bar"] = false := by decide
example :
    (PrefixMatcher.new [["foo", "bar"]]).visit ["foo"] =
      Visit.some (VisitDirs.set {"bar"}) (VisitFiles.set {"bar"}) := by decide
example : (PrefixMatcher.new [["foo", "bar"]]).visit ["foo", "bar"] = Visit.allRecursively := by
  decide
example : (PrefixMatcher.new [["foo", "bar"]]).visit ["bar"] = Visit.nothing := by decide
example : (PrefixMatcher.new [[]]).visit ["foo", "bar"] = Visit.allRecursively := by decide
example : FilesMatcher.new [[]] = none := rfl
example :
    (FilesMatcher.new [["dir1", "subdir1", "file1"], ["file4"]]).map
        (fun m => m.visit []) =
      Option.some (Visit.some (VisitDirs.set {"dir1"}) (VisitFiles.set {"file4"})) := by decide

/-! Auxiliary facts about component-list prefixes. -/

theorem prefix_of_concat {l1 l2 : List String} {a : String} (h : l1 <+: l2 ++ [a]) :
    l1 <+: l2 ∨ l1 = l2 ++ [a] := by
  rcases Nat.lt_or_ge l1.length (l2 ++ [a]).length with hlt | hge
  · left
    apply List.prefix_of_prefix_length_le h (List.prefix_append l2 [a])
    simp at hlt
    simpa using Nat.lt_succ_iff.mp hlt
  · right
    exact List.IsPrefix.eq_of_length h (Nat.le_antisymm (List.IsPrefix.length_le h) hge)

theorem concat_prefix_iff {l1 l2 : List String} {a : String} :
    l1 <+: l2 ++ [a] ↔ l1 <+: l2 ∨ l1 = l2 ++ [a] := by
  constructor
  · exact prefix_of_concat
  · rintro (h | rfl)
    · exact h.trans (List.prefix_append l2 [a])
    · exact List.prefix_refl _

theorem proper_prefix_iff_prefix_concat {x d : List String} {b : String} :
    x <+: d ↔ (x <+: d ++ [b] ∧ x ≠ d ++ [b]) := by
  constructor
  · intro h
    refine ⟨h.trans (List.prefix_append d [b]), ?_⟩
    intro hx
    have := List.IsPrefix.length_le h
    rw [hx] at this
    simp at this
  · rintro ⟨h, hne⟩
    rcases prefix_of_concat h with h' | h'
    · exact h'
    · exact absurd h' hne

theorem concat_inj {d1 d2 : List String} {b1 b2 : String} (h : d1 ++ [b1] = d2 ++ [b2]) :
    d1 = d2 ∧ b1 = b2 := by
  have hl : d1.length = d2.length := by
    have := congrArg List.length h
    simpa using this
  have := List.append_inj h (by simpa using hl)
  simpa using this

theorem prefix_same_length_eq {l1 l2 a : List String} (h1 : l1 <+: a) (h2 : l2 <+: a)
    (h : l1.length = l2.length) : l1 = l2 :=
  List.IsPrefix.eq_of_length (List.prefix_of_prefix_length_le h1 h2 h.le) h

theorem exists_next_of_proper {a d : List String} (h : a <+: d) (hne : a ≠ d) :
    ∃ c, a ++ [c] <+: d := by
  obtain ⟨t, rfl⟩ := h
  cases t with
  | nil => simp at hne
  | cons c t' =>
    refine ⟨c, t', ?_⟩
    simp

theorem concat_prefix_singleton {a : List String} {c c0 : String} :
    a ++ [c] <+: [c0] ↔ a = [] ∧ c = c0 := by
  constructor
  · intro h
    have hlen := List.IsPrefix.length_le h
    simp at hlen
    subst hlen
    simp at h
    exact ⟨rfl, h⟩
  · rintro ⟨rfl, rfl⟩
    simp

/-! Extensional characterisation of the `Dirs` helper. -/

/-- Invariant of a fully built `Dirs`: every present directory key has all of
its ancestors present, each recording the child component that leads back down
toward the key. -/
def DirsClosed (s : Dirs) : Prop :=
  ∀ a b c, (s.dirs a).isSome → b ++ [c] <+: a → c ∈ s.get_dirs b ∧ (s.dirs b).isSome

/-- Weakened invariant holding in the middle of the `add_dir` loop: closure may
fail only along the dangling chain below `dir ++ [c0]` (the keys created by the
iterations already run), at ancestors of `dir` (the keys not yet visited). -/
def DirsClosedExc (s : Dirs) (dir : RepoPath) (mc : Option String) : Prop :=
  ∀ a b c, (s.dirs a).isSome → b ++ [c] <+: a →
    (c ∈ s.get_dirs b ∧ (s.dirs b).isSome) ∨
    (∃ c0, mc = Option.some c0 ∧ dir ++ [c0] <+: a ∧ b <+: dir)

theorem DirsClosed.toExc {s : Dirs} (h : DirsClosed s) (dir : RepoPath) (mc : Option String) :
    DirsClosedExc s dir mc :=
  fun a b c hS hp => Or.inl (h a b c hS hp)

theorem dirsClosedExc_none {s : Dirs} {dir : RepoPath} (h : DirsClosedExc s dir none) :
    DirsClosed s := by
  intro a b c hS hp
  rcases h a b c hS hp with hg | ⟨c0, hc0, _⟩
  · exact hg
  · simp at hc0

theorem dirsClosed_new : DirsClosed Dirs.new := by
  intro a b c hS _
  simp [Dirs.new] at hS

theorem Dirs.addChild_dirs_isSome (s : Dirs) (dir : RepoPath) (mc : Option String)
    (a : RepoPath) :
    ((Dirs.addChild s dir mc).dirs a).isSome ↔ (s.dirs a).isSome ∨ a = dir := by
  by_cases h : a = dir
  · subst h
    simp [Dirs.addChild, mapUpdate]
  · simp [Dirs.addChild, mapUpdate, h]

theorem Dirs.addChild_mem_get_dirs (s : Dirs) (dir : RepoPath) (mc : Option String)
    (a : RepoPath) (c : String) :
    c ∈ (Dirs.addChild s dir mc).get_dirs a ↔
      c ∈ s.get_dirs a ∨ (a = dir ∧ mc = Option.some c) := by
  by_cases h : a = dir
  · subst h
    cases mc with
    | none => simp [Dirs.addChild, Dirs.get_dirs, mapUpdate]
    | some c0 =>
      have hmem : c ∈ (Dirs.addChild s a (Option.some c0)).get_dirs a ↔
          c = c0 ∨ c ∈ s.get_dirs a := by
        simp [Dirs.addChild, Dirs.get_dirs, mapUpdate]
      rw [hmem]
      constructor
      · rintro (rfl | hm)
        · exact Or.inr ⟨rfl, rfl⟩
        · exact Or.inl hm
      · rintro (hm | ⟨-, hc⟩)
        · exact Or.inr hm
        · exact Or.inl (Option.some_inj.mp hc).symm
  · simp [Dirs.addChild, Dirs.get_dirs, mapUpdate, h]

theorem Dirs.addChild_files (s : Dirs) (dir : RepoPath) (mc : Option String) :
    (Dirs.addChild s dir mc).files = s.files := rfl

theorem Dirs.addDirLoop_nil {s : Dirs} {mc : Option String} :
    Dirs.addDirLoop s [] mc = Dirs.addChild s [] mc := by
  by_cases h : (s.dirs ([] : RepoPath)).isSome <;> simp [Dirs.addDirLoop, h]

theorem Dirs.addDirLoop_present {s : Dirs} {rdir : List String} {mc : Option String}
    (h : (s.dirs rdir.reverse).isSome) :
    Dirs.addDirLoop s rdir mc = Dirs.addChild s rdir.reverse mc := by
  cases rdir with
  | nil => exact Dirs.addDirLoop_nil
  | cons c rest =>
    simp only [List.reverse_cons] at h ⊢
    simp [Dirs.addDirLoop, h]

theorem Dirs.addDirLoop_cons_absent {s : Dirs} {c : String} {rest : List String}
    {mc : Option String} (h : ¬(s.dirs ((c :: rest).reverse)).isSome) :
    Dirs.addDirLoop s (c :: rest) mc =
      Dirs.addDirLoop (Dirs.addChild s ((c :: rest).reverse) mc) rest (Option.some c) := by
  simp only [List.reverse_cons] at h ⊢
  simp [Dirs.addDirLoop, h]

theorem not_concat_prefix_self {dir : List String} {x : String} : ¬ (dir ++ [x] <+: dir) := by
  intro h
  have := List.IsPrefix.length_le h
  simp at this

theorem not_nonempty_prefix_nil {b : List String} {c : String} :
    ¬ (b ++ [c] <+: ([] : List String)) := by
  intro h
  have := List.IsPrefix.length_le h
  simp at this

theorem proper_prefix_length_lt {b d : List String} (h : b <+: d) (hne : b ≠ d) :
    b.length < d.length := by
  rcases Nat.lt_or_ge b.length d.length with h' | h'
  · exact h'
  · exact absurd
      (List.IsPrefix.eq_of_length h (Nat.le_antisymm (List.IsPrefix.length_le h) h')) hne

/-- Once the `add_dir` loop finds the current directory already present it
stops after one more insertion: under the mid-loop invariant, that single
`addChild` already realises the effect of a full `add_dir` of the pending
target. -/
theorem addDirLoop_spec_present {s : Dirs} {dir : RepoPath} {mc : Option String}
    (hP : (s.dirs dir).isSome) (hs : DirsClosedExc s dir mc) :
    (∀ a, ((Dirs.addChild s dir mc).dirs a).isSome ↔ (s.dirs a).isSome ∨ a <+: dir) ∧
    (∀ a c, c ∈ (Dirs.addChild s dir mc).get_dirs a ↔
      c ∈ s.get_dirs a ∨ a ++ [c] <+: dir ++ mc.toList) ∧
    ((Dirs.addChild s dir mc).files = s.files) ∧
    DirsClosed (Dirs.addChild s dir mc) := by
  refine ⟨?_, ?_, Dirs.addChild_files s dir mc, ?_⟩
  · intro a
    rw [Dirs.addChild_dirs_isSome]
    constructor
    · rintro (h | rfl)
      · exact Or.inl h
      · exact Or.inr (List.prefix_refl _)
    · rintro (h | h)
      · exact Or.inl h
      · by_cases ha : a = dir
        · exact Or.inr ha
        · obtain ⟨c', hc'⟩ := exists_next_of_proper h ha
          rcases hs dir a c' hP hc' with ⟨_, hS⟩ | ⟨c0, _, hpre0, _⟩
          · exact Or.inl hS
          · exact absurd hpre0 not_concat_prefix_self
  · intro a c
    rw [Dirs.addChild_mem_get_dirs]
    constructor
    · rintro (h | ⟨rfl, rfl⟩)
      · exact Or.inl h
      · exact Or.inr (by simp)
    · rintro (h | h)
      · exact Or.inl h
      · cases mc with
        | none =>
          simp only [Option.toList_none, List.append_nil] at h
          rcases hs dir a c hP h with ⟨hm, _⟩ | ⟨c0, hc0, _, _⟩
          · exact Or.inl hm
          · simp at hc0
        | some m =>
          simp only [Option.toList_some] at h
          rcases prefix_of_concat h with h' | h'
          · rcases hs dir a c hP h' with ⟨hm, _⟩ | ⟨c0, _, hpre0, _⟩
            · exact Or.inl hm
            · exact absurd hpre0 not_concat_prefix_self
          · obtain ⟨rfl, rfl⟩ := concat_inj h'
            exact Or.inr ⟨rfl, rfl⟩
  · intro a b c hS hpre
    have hsa : (s.dirs a).isSome := by
      rcases (Dirs.addChild_dirs_isSome s dir mc a).mp hS with h | rfl
      · exact h
      · exact hP
    rcases hs a b c hsa hpre with ⟨hm, hb⟩ | ⟨c0, hmc, h1, hb⟩
    · refine ⟨(Dirs.addChild_mem_get_dirs s dir mc b c).mpr (Or.inl hm), ?_⟩
      rw [Dirs.addChild_dirs_isSome]
      exact Or.inl hb
    · by_cases hbd : b = dir
      · have hcc0 : c = c0 := by
          have heq : b ++ [c] = dir ++ [c0] :=
            prefix_same_length_eq hpre h1 (by simp [hbd])
          exact (concat_inj heq).2
        refine ⟨(Dirs.addChild_mem_get_dirs s dir mc b c).mpr
          (Or.inr ⟨hbd, by rw [hcc0]; exact hmc⟩), ?_⟩
        rw [Dirs.addChild_dirs_isSome]
        exact Or.inr hbd
      · have hlen : b.length + 1 ≤ dir.length := proper_prefix_length_lt hb hbd
        have hdira : dir <+: a := (List.prefix_append dir [c0]).trans h1
        have hbc : b ++ [c] <+: dir :=
          List.prefix_of_prefix_length_le hpre hdira (by simpa using hlen)
        rcases hs dir b c hP hbc with ⟨hm, hb'⟩ | ⟨c0', _, hpre0, _⟩
        · refine ⟨(Dirs.addChild_mem_get_dirs s dir mc b c).mpr (Or.inl hm), ?_⟩
          rw [Dirs.addChild_dirs_isSome]
          exact Or.inl hb'
        · exact absurd hpre0 not_concat_prefix_self

theorem concat_eq_concat_iff {d1 d2 : List String} {b1 b2 : String} :
    d1 ++ [b1] = d2 ++ [b2] ↔ d1 = d2 ∧ b1 = b2 := by
  constructor
  · exact concat_inj
  · rintro ⟨rfl, rfl⟩
    rfl

/-- Full effect of the `add_dir` loop: starting from a state satisfying the
mid-loop invariant it creates exactly the entries for the ancestors of the
current directory, records along each of them the child component leading
toward the pending target, leaves the file map untouched, and restores the
closure invariant. -/
theorem addDirLoop_spec (rdir : List String) :
    ∀ (mc : Option String) (s : Dirs), DirsClosedExc s rdir.reverse mc →
    (∀ a, ((Dirs.addDirLoop s rdir mc).dirs a).isSome ↔
       (s.dirs a).isSome ∨ a <+: rdir.reverse) ∧
    (∀ a c, c ∈ (Dirs.addDirLoop s rdir mc).get_dirs a ↔
       c ∈ s.get_dirs a ∨ a ++ [c] <+: rdir.reverse ++ mc.toList) ∧
    ((Dirs.addDirLoop s rdir mc).files = s.files) ∧
    DirsClosed (Dirs.addDirLoop s rdir mc) := by
  induction rdir with
  | nil =>
    intro mc s hs
    by_cases hP : (s.dirs ([] : RepoPath)).isSome
    · have h := @addDirLoop_spec_present s [] mc hP (by simpa using hs)
      rw [Dirs.addDirLoop_nil]
      simpa using h
    · rw [Dirs.addDirLoop_nil]
      refine ⟨?_, ?_, Dirs.addChild_files s [] mc, ?_⟩
      · intro a
        rw [Dirs.addChild_dirs_isSome]
        simp
      · intro a c
        rw [Dirs.addChild_mem_get_dirs]
        cases mc with
        | none =>
          simp only [Option.toList_none, List.reverse_nil, List.nil_append]
          constructor
          · rintro (h | ⟨-, h⟩)
            · exact Or.inl h
            · simp at h
          · rintro (h | h)
            · exact Or.inl h
            · exact absurd h not_nonempty_prefix_nil
        | some m =>
          simp only [Option.toList_some, List.reverse_nil, List.nil_append]
          rw [concat_prefix_singleton]
          constructor
          · rintro (h | ⟨rfl, h⟩)
            · exact Or.inl h
            · exact Or.inr ⟨rfl, (Option.some_inj.mp h).symm⟩
          · rintro (h | ⟨rfl, rfl⟩)
            · exact Or.inl h
            · exact Or.inr ⟨rfl, rfl⟩
      · intro a b c hS hpre
        rcases (Dirs.addChild_dirs_isSome s [] mc a).mp hS with hsa | rfl
        · rcases hs a b c hsa hpre with ⟨hm, hb⟩ | ⟨c0, hmc, h1, hb⟩
          · exact ⟨(Dirs.addChild_mem_get_dirs s [] mc b c).mpr (Or.inl hm),
              (Dirs.addChild_dirs_isSome s [] mc b).mpr (Or.inl hb)⟩
          · have hb0 : b = [] := by simpa using List.IsPrefix.length_le hb
            subst hb0
            have hcc : c = c0 := by
              have heq : ([] : List String) ++ [c] = ([] : List String).reverse ++ [c0] :=
                prefix_same_length_eq hpre h1 (by simp)
              simpa using heq
            refine ⟨(Dirs.addChild_mem_get_dirs s [] mc [] c).mpr
              (Or.inr ⟨rfl, by rw [hcc]; exact hmc⟩),
              (Dirs.addChild_dirs_isSome s [] mc []).mpr (Or.inr rfl)⟩
        · exact absurd hpre not_nonempty_prefix_nil
  | cons c rest ih =>
    intro mc s hs
    by_cases hP : (s.dirs ((c :: rest).reverse)).isSome
    · rw [Dirs.addDirLoop_present hP]
      exact addDirLoop_spec_present hP hs
    · rw [Dirs.addDirLoop_cons_absent hP]
      have hexc1 : DirsClosedExc (Dirs.addChild s ((c :: rest).reverse) mc)
          rest.reverse (Option.some c) := by
        intro a b c' hS hpre
        rcases (Dirs.addChild_dirs_isSome s _ mc a).mp hS with hsa | ha
        · rcases hs a b c' hsa hpre with ⟨hm, hb⟩ | ⟨c0, hmc, h1, hb⟩
          · exact Or.inl ⟨(Dirs.addChild_mem_get_dirs s _ mc b c').mpr (Or.inl hm),
              (Dirs.addChild_dirs_isSome s _ mc b).mpr (Or.inl hb)⟩
          · have hda : rest.reverse ++ [c] <+: a := by
              rw [← List.reverse_cons]
              exact (List.prefix_append _ _).trans h1
            rw [List.reverse_cons] at hb
            rcases prefix_of_concat hb with hb' | hb'
            · exact Or.inr ⟨c, rfl, hda, hb'⟩
            · have hbd : b = (c :: rest).reverse := by rw [List.reverse_cons]; exact hb'
              have hcc : c' = c0 := by
                have heq : b ++ [c'] = (c :: rest).reverse ++ [c0] :=
                  prefix_same_length_eq hpre h1 (by simp [hbd])
                exact (concat_inj heq).2
              refine Or.inl ⟨(Dirs.addChild_mem_get_dirs s _ mc b c').mpr
                (Or.inr ⟨hbd, by rw [hcc]; exact hmc⟩),
                (Dirs.addChild_dirs_isSome s _ mc b).mpr (Or.inr hbd)⟩
        · have hpre' : b ++ [c'] <+: rest.reverse ++ [c] := by
            rw [ha, List.reverse_cons] at hpre
            exact hpre
          have hbr : b <+: rest.reverse := by
            rcases prefix_of_concat hpre' with hp' | hp'
            · exact (List.prefix_append b [c']).trans hp'
            · rw [(concat_inj hp').1]
          have hba : rest.reverse ++ [c] <+: a := by
            rw [ha, List.reverse_cons]
          exact Or.inr ⟨c, rfl, hba, hbr⟩
      obtain ⟨K1, D1, F1, C1⟩ := ih (Option.some c) (Dirs.addChild s ((c :: rest).reverse) mc) hexc1
      refine ⟨?_, ?_, F1.trans (Dirs.addChild_files s _ mc), C1⟩
      · intro a
        rw [K1 a, Dirs.addChild_dirs_isSome]
        simp only [List.reverse_cons]
        rw [concat_prefix_iff]
        tauto
      · intro a c'
        rw [D1 a c', Dirs.addChild_mem_get_dirs]
        cases mc with
        | none =>
          simp only [List.reverse_cons, Option.toList_none, Option.toList_some,
            List.append_nil]
          constructor
          · rintro ((h | ⟨-, h⟩) | h)
            · exact Or.inl h
            · simp at h
            · exact Or.inr h
          · rintro (h | h)
            · exact Or.inl (Or.inl h)
            · exact Or.inr h
        | some m =>
          simp only [List.reverse_cons, Option.toList_some]
          rw [@concat_prefix_iff _ (rest.reverse ++ [c]) m, concat_eq_concat_iff]
          constructor
          · rintro ((h | ⟨rfl, h⟩) | h)
            · exact Or.inl h
            · exact Or.inr (Or.inr ⟨rfl, (Option.some_inj.mp h).symm⟩)
            · exact Or.inr (Or.inl h)
          · rintro (h | (h | ⟨rfl, rfl⟩))
            · exact Or.inl (Or.inl h)
            · exact Or.inr h
            · exact Or.inl (Or.inr ⟨rfl, rfl⟩)

/-- Effect of `Dirs::add_dir` on a closed state: it creates exactly the keys
for the ancestors of `d` and records along each proper ancestor the component
leading toward `d`. -/
theorem Dirs.add_dir_spec (s : Dirs) (d : RepoPath) (hc : DirsClosed s) :
    (∀ a, ((s.add_dir d).dirs a).isSome ↔ (s.dirs a).isSome ∨ a <+: d) ∧
    (∀ a c, c ∈ (s.add_dir d).get_dirs a ↔ c ∈ s.get_dirs a ∨ a ++ [c] <+: d) ∧
    ((s.add_dir d).files = s.files) ∧ DirsClosed (s.add_dir d) := by
  have h := addDirLoop_spec d.reverse none s
    (by rw [List.reverse_reverse]; exact hc.toExc d none)
  rw [List.reverse_reverse] at h
  simp only [Option.toList_none, List.append_nil] at h
  exact h

/-- Effect of `Dirs::add_file` on a closed state: it succeeds on any non-root
path, adds the ancestors of the parent directory to the directory map, and
records the basename under the parent in the file map. -/
theorem Dirs.add_file_spec (s : Dirs) (d : RepoPath) (b : String) (hc : DirsClosed s) :
    ∃ s', s.add_file (d ++ [b]) = Option.some s' ∧
      (∀ a, ((s'.dirs) a).isSome ↔ (s.dirs a).isSome ∨ a <+: d) ∧
      (∀ a c, c ∈ s'.get_dirs a ↔ c ∈ s.get_dirs a ∨ a ++ [c] <+: d) ∧
      (∀ a c, c ∈ s'.get_files a ↔ c ∈ s.get_files a ∨ (a = d ∧ c = b)) ∧
      DirsClosed s' := by
  obtain ⟨K, D, F, C⟩ := Dirs.add_dir_spec s d hc
  refine ⟨{ s.add_dir d with
      files := mapUpdate (s.add_dir d).files d (insert b (((s.add_dir d).files d).getD ∅)) },
    ?_, K, D, ?_, C⟩
  · simp only [Dirs.add_file, RepoPath.split_concat]
  · intro a c
    by_cases ha : a = d
    · subst ha
      have hfa : (s.add_dir a).files a = s.files a := by rw [F]
      have hupd : ∀ v : Finset String, mapUpdate (s.add_dir a).files a v a = Option.some v := by
        intro v
        simp [mapUpdate]
      simp only [Dirs.get_files, hfa, hupd, Option.getD_some, Finset.mem_insert]
      tauto
    · simp only [Dirs.get_files, mapUpdate, if_neg ha, F]
      constructor
      · exact Or.inl
      · rintro (h | ⟨had, -⟩)
        · exact h
        · exact absurd had ha

theorem Dirs.add_file_root (s : Dirs) : s.add_file [] = none := rfl

theorem Dirs.new_get_dirs (a : RepoPath) : Dirs.new.get_dirs a = ∅ := rfl

theorem Dirs.new_get_files (a : RepoPath) : Dirs.new.get_files a = ∅ := rfl

theorem foldFiles_none_propagates (fs : List RepoPath) :
    fs.foldl (fun acc f => acc.bind (fun t => t.add_file f)) (none : Option Dirs) = none := by
  induction fs with
  | nil => rfl
  | cons f rest ih =>
    rw [List.foldl_cons]
    exact ih

/-- Characterisation of folding `Dirs::add_file` over a list of non-root
files, as done by `FilesMatcher::new`. -/
theorem foldFiles_spec (fs : List RepoPath) :
    ∀ s : Dirs, DirsClosed s → (∀ f ∈ fs, f ≠ []) →
    ∃ s', fs.foldl (fun acc f => acc.bind (fun t => t.add_file f)) (Option.some s)
        = Option.some s' ∧
      DirsClosed s' ∧
      (∀ a c, c ∈ s'.get_dirs a ↔
        c ∈ s.get_dirs a ∨ ∃ f ∈ fs, a ++ [c] <+: f ∧ a ++ [c] ≠ f) ∧
      (∀ a c, c ∈ s'.get_files a ↔ c ∈ s.get_files a ∨ ∃ f ∈ fs, f = a ++ [c]) := by
  induction fs with
  | nil =>
    intro s hc _
    exact ⟨s, rfl, hc, by simp, by simp⟩
  | cons f rest ih =>
    intro s hc hnr
    have hf : f ≠ [] := hnr f (by simp)
    obtain ⟨d, b, rfl⟩ : ∃ (d : RepoPath) (b : String), f = d ++ [b] := by
      rcases List.eq_nil_or_concat f with h | ⟨d, b, h⟩
      · exact absurd h hf
      · rw [List.concat_eq_append] at h
        exact ⟨d, b, h⟩
    obtain ⟨s1, hs1, K1, D1, Ff1, C1⟩ := Dirs.add_file_spec s d b hc
    have hstep : List.foldl (fun acc f => acc.bind (fun t => t.add_file f))
        (Option.some s) ((d ++ [b]) :: rest)
        = List.foldl (fun acc f => acc.bind (fun t => t.add_file f)) (Option.some s1) rest := by
      simp only [List.foldl_cons, Option.some_bind]
      rw [hs1]
    rw [hstep]
    obtain ⟨s', hfold, C', D', F'⟩ := ih s1 C1 (fun g hg => hnr g (by simp [hg]))
    refine ⟨s', hfold, C', ?_, ?_⟩
    · intro a c
      rw [D' a c, D1 a c]
      have hiff : a ++ [c] <+: d ↔ (a ++ [c] <+: d ++ [b] ∧ a ++ [c] ≠ d ++ [b]) :=
        proper_prefix_iff_prefix_concat
      simp only [List.mem_cons]
      constructor
      · rintro ((h | h) | ⟨g, hgm, hp⟩)
        · exact Or.inl h
        · exact Or.inr ⟨d ++ [b], Or.inl rfl, hiff.mp h⟩
        · exact Or.inr ⟨g, Or.inr hgm, hp⟩
      · rintro (h | ⟨g, rfl | hgm, hp⟩)
        · exact Or.inl (Or.inl h)
        · exact Or.inl (Or.inr (hiff.mpr hp))
        · exact Or.inr ⟨g, hgm, hp⟩
    · intro a c
      rw [F' a c, Ff1 a c]
      simp only [List.mem_cons]
      constructor
      · rintro ((h | ⟨rfl, rfl⟩) | ⟨g, hgm, hp⟩)
        · exact Or.inl h
        · exact Or.inr ⟨a ++ [c], Or.inl rfl, rfl⟩
        · exact Or.inr ⟨g, Or.inr hgm, hp⟩
      · rintro (h | ⟨g, rfl | hgm, hp⟩)
        · exact Or.inl (Or.inl h)
        · exact Or.inl (Or.inr ⟨(concat_inj hp).1.symm, (concat_inj hp).2.symm⟩)
        · exact Or.inr ⟨g, hgm, hp⟩

theorem foldFiles_eq_none_iff (fs : List RepoPath) :
    ∀ s : Dirs, DirsClosed s →
    (fs.foldl (fun acc f => acc.bind (fun t => t.add_file f)) (Option.some s) = none
      ↔ ∃ f ∈ fs, f = []) := by
  induction fs with
  | nil =>
    intro s _
    simp
  | cons f rest ih =>
    intro s hc
    by_cases hf : f = []
    · subst hf
      have hstep : List.foldl (fun acc f => acc.bind (fun t => t.add_file f))
          (Option.some s) ([] :: rest)
          = List.foldl (fun acc f => acc.bind (fun t => t.add_file f)) none rest := by
        simp only [List.foldl_cons, Option.some_bind]
        rw [Dirs.add_file_root]
      rw [hstep, foldFiles_none_propagates rest]
      simp
    · obtain ⟨d, b, rfl⟩ : ∃ (d : RepoPath) (b : String), f = d ++ [b] := by
        rcases List.eq_nil_or_concat f with h | ⟨d, b, h⟩
        · exact absurd h hf
        · rw [List.concat_eq_append] at h
          exact ⟨d, b, h⟩
      obtain ⟨s1, hs1, _, _, _, C1⟩ := Dirs.add_file_spec s d b hc
      have hstep : List.foldl (fun acc f => acc.bind (fun t => t.add_file f))
          (Option.some s) ((d ++ [b]) :: rest)
          = List.foldl (fun acc f => acc.bind (fun t => t.add_file f)) (Option.some s1) rest := by
        simp only [List.foldl_cons, Option.some_bind]
        rw [hs1]
      rw [hstep, ih s1 C1]
      simp only [List.mem_cons]
      constructor
      · rintro ⟨g, hgm, hge⟩
        exact ⟨g, Or.inr hgm, hge⟩
      · rintro ⟨g, rfl | hgm, hge⟩
        · simp at hge
        · exact ⟨g, hgm, hge⟩

/-- Characterisation of a successfully constructed `FilesMatcher`. -/
theorem filesMatcher_new_spec (files : List RepoPath) (h : ∀ f ∈ files, f ≠ []) :
    ∃ fm, FilesMatcher.new files = Option.some fm ∧ fm.files = files ∧
      (∀ a c, c ∈ fm.dirs.get_dirs a ↔ ∃ f ∈ files, a ++ [c] <+: f ∧ a ++ [c] ≠ f) ∧
      (∀ a c, c ∈ fm.dirs.get_files a ↔ ∃ f ∈ files, f = a ++ [c]) := by
  obtain ⟨s', hfold, _, D', F'⟩ := foldFiles_spec files Dirs.new dirsClosed_new h
  refine ⟨⟨files, s'⟩, ?_, rfl, ?_, ?_⟩
  · unfold FilesMatcher.new
    rw [hfold]
  · intro a c
    have hd := D' a c
    rw [Dirs.new_get_dirs] at hd
    simpa using hd
  · intro a c
    have hd := F' a c
    rw [Dirs.new_get_files] at hd
    simpa using hd

theorem filesMatcher_new_eq_none_iff (files : List RepoPath) :
    FilesMatcher.new files = none ↔ [] ∈ files := by
  constructor
  · intro hnew
    by_contra hmem
    have hall : ∀ f ∈ files, f ≠ [] := fun f hf hfe => hmem (hfe ▸ hf)
    obtain ⟨fm, hsome, _⟩ := filesMatcher_new_spec files hall
    rw [hsome] at hnew
    cases hnew
  · intro hmem
    have hfold : files.foldl (fun acc f => acc.bind (fun t => t.add_file f))
        (Option.some Dirs.new) = none :=
      (foldFiles_eq_none_iff files Dirs.new dirsClosed_new).mpr ⟨[], hmem, rfl⟩
    unfold FilesMatcher.new
    rw [hfold]

/-- Effect of one iteration of the `PrefixMatcher::new` loop. -/
theorem addPrefixStep_spec (s : Dirs) (p : RepoPath) (hc : DirsClosed s) :
    DirsClosed (PrefixMatcher.addPrefixStep s p) ∧
    (∀ a c, c ∈ (PrefixMatcher.addPrefixStep s p).get_dirs a ↔
      c ∈ s.get_dirs a ∨ a ++ [c] <+: p) ∧
    (∀ a c, c ∈ (PrefixMatcher.addPrefixStep s p).get_files a ↔
      c ∈ s.get_files a ∨ (p ≠ [] ∧ p = a ++ [c])) := by
  by_cases hp : p = []
  · subst hp
    obtain ⟨K, D, F, C⟩ := Dirs.add_dir_spec s [] hc
    have hstep : PrefixMatcher.addPrefixStep s [] = Dirs.add_dir s [] := by
      simp [PrefixMatcher.addPrefixStep, RepoPath.is_root]
    rw [hstep]
    refine ⟨C, fun a c => D a c, ?_⟩
    intro a c
    have hgf : (Dirs.add_dir s []).get_files a = s.get_files a := by
      unfold Dirs.get_files
      rw [F]
    rw [hgf]
    constructor
    · exact Or.inl
    · rintro (h | ⟨habs, -⟩)
      · exact h
      · exact absurd rfl habs
  · obtain ⟨d, b, rfl⟩ : ∃ (d : RepoPath) (b : String), p = d ++ [b] := by
      rcases List.eq_nil_or_concat p with h | ⟨d, b, h⟩
      · exact absurd h hp
      · rw [List.concat_eq_append] at h
        exact ⟨d, b, h⟩
    have hroot : (d ++ [b]).is_root = false := by simp [RepoPath.is_root]
    obtain ⟨K, D, F, C⟩ := Dirs.add_dir_spec s (d ++ [b]) hc
    obtain ⟨s2, hs2, K2, D2, F2, C2⟩ := Dirs.add_file_spec (Dirs.add_dir s (d ++ [b])) d b C
    have hstep : PrefixMatcher.addPrefixStep s (d ++ [b]) = s2 := by
      simp [PrefixMatcher.addPrefixStep, hroot, hs2]
    rw [hstep]
    refine ⟨C2, ?_, ?_⟩
    · intro a c
      rw [D2 a c, D a c]
      constructor
      · rintro ((h | h) | h)
        · exact Or.inl h
        · exact Or.inr h
        · exact Or.inr (h.trans (List.prefix_append d [b]))
      · rintro (h | h)
        · exact Or.inl (Or.inl h)
        · exact Or.inl (Or.inr h)
    · intro a c
      rw [F2 a c]
      have hgf : (Dirs.add_dir s (d ++ [b])).get_files a = s.get_files a := by
        unfold Dirs.get_files
        rw [F]
      rw [hgf]
      constructor
      · rintro (h | ⟨rfl, rfl⟩)
        · exact Or.inl h
        · exact Or.inr ⟨by simp, rfl⟩
      · rintro (h | ⟨-, he⟩)
        · exact Or.inl h
        · exact Or.inr ⟨(concat_inj he).1.symm, (concat_inj he).2.symm⟩

/-- Characterisation of folding the `PrefixMatcher::new` loop body over the
prefix list. -/
theorem foldPre_spec (ps : List RepoPath) :
    ∀ s : Dirs, DirsClosed s →
    DirsClosed (ps.foldl PrefixMatcher.addPrefixStep s) ∧
    (∀ a c, c ∈ (ps.foldl PrefixMatcher.addPrefixStep s).get_dirs a ↔
      c ∈ s.get_dirs a ∨ ∃ q ∈ ps, a ++ [c] <+: q) ∧
    (∀ a c, c ∈ (ps.foldl PrefixMatcher.addPrefixStep s).get_files a ↔
      c ∈ s.get_files a ∨ ∃ q ∈ ps, q ≠ [] ∧ q = a ++ [c]) := by
  induction ps with
  | nil =>
    intro s hc
    exact ⟨hc, by simp, by simp⟩
  | cons p rest ih =>
    intro s hc
    obtain ⟨C1, D1, F1⟩ := addPrefixStep_spec s p hc
    obtain ⟨C', D', F'⟩ := ih (PrefixMatcher.addPrefixStep s p) C1
    rw [List.foldl_cons]
    refine ⟨C', ?_, ?_⟩
    · intro a c
      rw [D' a c, D1 a c]
      simp only [List.mem_cons]
      constructor
      · rintro ((h | h) | ⟨q, hqm, hq⟩)
        · exact Or.inl h
        · exact Or.inr ⟨p, Or.inl rfl, h⟩
        · exact Or.inr ⟨q, Or.inr hqm, hq⟩
      · rintro (h | ⟨q, rfl | hqm, hq⟩)
        · exact Or.inl (Or.inl h)
        · exact Or.inl (Or.inr hq)
        · exact Or.inr ⟨q, hqm, hq⟩
    · intro a c
      rw [F' a c, F1 a c]
      simp only [List.mem_cons]
      constructor
      · rintro ((h | h) | ⟨q, hqm, hq⟩)
        · exact Or.inl h
        · exact Or.inr ⟨p, Or.inl rfl, h⟩
        · exact Or.inr ⟨q, Or.inr hqm, hq⟩
      · rintro (h | ⟨q, rfl | hqm, hq⟩)
        · exact Or.inl (Or.inl h)
        · exact Or.inl (Or.inr hq)
        · exact Or.inr ⟨q, hqm, hq⟩

theorem prefixMatcher_get_dirs (ps : List RepoPath) (a : RepoPath) (c : String) :
    c ∈ (PrefixMatcher.new ps).dirs.get_dirs a ↔ ∃ q ∈ ps, a ++ [c] <+: q := by
  have h := (foldPre_spec ps Dirs.new dirsClosed_new).2.1 a c
  rw [Dirs.new_get_dirs] at h
  simpa using h

theorem prefixMatcher_get_files (ps : List RepoPath) (a : RepoPath) (c : String) :
    c ∈ (PrefixMatcher.new ps).dirs.get_files a ↔ ∃ q ∈ ps, q ≠ [] ∧ q = a ++ [c] := by
  have h := (foldPre_spec ps Dirs.new dirsClosed_new).2.2 a c
  rw [Dirs.new_get_files] at h
  simpa using h

theorem prefixMatcher_matches_iff (ps : List RepoPath) (p : RepoPath) :
    (PrefixMatcher.new ps).matches p = true ↔ ∃ q ∈ ps, q <+: p := by
  unfold PrefixMatcher.matches
  rw [List.any_eq_true]
  constructor
  · rintro ⟨i, hi, hq⟩
    rw [decide_eq_true_eq] at hq
    exact ⟨p.take i, hq, List.take_prefix i p⟩
  · rintro ⟨q, hqm, hq⟩
    refine ⟨q.length, ?_, ?_⟩
    · rw [List.mem_range]
      exact Nat.lt_succ_of_le hq.length_le
    · rw [decide_eq_true_eq]
      rw [List.prefix_iff_eq_take] at hq
      rw [← hq]
      exact hqm

theorem prefixMatcher_matches_mono {ps : List RepoPath} {d d' : RepoPath}
    (h : (PrefixMatcher.new ps).matches d = true) (hdd : d <+: d') :
    (PrefixMatcher.new ps).matches d' = true := by
  rw [prefixMatcher_matches_iff] at h ⊢
  obtain ⟨q, hqm, hq⟩ := h
  exact ⟨q, hqm, hq.trans hdd⟩

/-! Traversal semantics of `visit`, used to state the matcher-correctness
claim: a path is included by an exhaustive walk iff every directory on the way
admits the next component and the final directory admits the basename as a
file, descending freely below a directory whose visit is `AllRecursively`. -/

/-- Does a directory selector admit this child component? -/
def VisitDirs.admits : VisitDirs → String → Bool
  | VisitDirs.all, _ => true
  | VisitDirs.set s, c => decide (c ∈ s)

/-- Does a file selector admit this basename? -/
def VisitFiles.admits : VisitFiles → String → Bool
  | VisitFiles.all, _ => true
  | VisitFiles.set s, c => decide (c ∈ s)

/-- Does this visit admit descending into the child directory? -/
def Visit.admitsDir : Visit → String → Bool
  | Visit.allRecursively, _ => true
  | Visit.some ds _, c => ds.admits c

/-- Does this visit admit including the file with this basename? -/
def Visit.admitsFile : Visit → String → Bool
  | Visit.allRecursively, _ => true
  | Visit.some _ fs, c => fs.admits c

/-- Exhaustive walk from directory `cur` along the remaining components of a
path, consulting `visit` at each directory and descending freely once a
directory answers `AllRecursively`. -/
def walkIncluded (visit : RepoPath → Visit) : RepoPath → List String → Bool
  | _, [] => false
  | cur, [b] =>
    match visit cur with
    | Visit.allRecursively => true
    | Visit.some _ fsel => fsel.admits b
  | cur, c :: d :: rest =>
    match visit cur with
    | Visit.allRecursively => true
    | Visit.some dsel _ => dsel.admits c && walkIncluded visit (cur ++ [c]) (d :: rest)

theorem bool_eq_of_iff {a b : Bool} (h : a = true ↔ b = true) : a = b := by
  cases a <;> cases b <;> simp_all

/-- C2: `PrefixMatcher::matches p` holds iff some listed prefix is an
ancestor-or-equal of `p`; in particular if the root is listed every path
matches, and with an empty prefix list no path matches. -/
theorem prefixMatcher_matches_ancestor_or_equal (ps : List RepoPath) (p : RepoPath) :
    ((PrefixMatcher.new ps).matches p = true ↔ ∃ q ∈ ps, q <+: p) ∧
    ([] ∈ ps → (PrefixMatcher.new ps).matches p = true) ∧
    ((PrefixMatcher.new []).matches p = false) := by
  refine ⟨prefixMatcher_matches_iff ps p, ?_, ?_⟩
  · intro h
    exact (prefixMatcher_matches_iff ps p).mpr ⟨[], h, List.nil_prefix⟩
  · have h := prefixMatcher_matches_iff [] p
    simp at h
    exact h

/-- C3: `PrefixMatcher::visit` answers `AllRecursively` on a matched
directory; on an unmatched one it lists exactly the child components leading
toward a listed prefix as directories and the listed prefixes themselves as
files; consequently the parent of any non-root listed prefix is offered the
prefix's basename both as a directory and as a file. -/
theorem prefixMatcher_visit_spec (ps : List RepoPath) :
    (∀ d, (PrefixMatcher.new ps).matches d = true →
      (PrefixMatcher.new ps).visit d = Visit.allRecursively) ∧
    (∀ d, (PrefixMatcher.new ps).matches d = false →
      ∃ ds fs,
        (PrefixMatcher.new ps).visit d = Visit.some (VisitDirs.set ds) (VisitFiles.set fs) ∧
        (∀ c, c ∈ ds ↔ ∃ q ∈ ps, d ++ [c] <+: q) ∧
        (∀ c, c ∈ fs ↔ ∃ q ∈ ps, q ≠ [] ∧ q = d ++ [c])) ∧
    (∀ q d b, q ∈ ps → q = d ++ [b] →
      ((PrefixMatcher.new ps).visit d).admitsDir b = true ∧
      ((PrefixMatcher.new ps).visit d).admitsFile b = true) := by
  refine ⟨?_, ?_, ?_⟩
  · intro d h
    simp [PrefixMatcher.visit, h]
  · intro d h
    refine ⟨(PrefixMatcher.new ps).dirs.get_dirs d, (PrefixMatcher.new ps).dirs.get_files d,
      ?_, fun c => prefixMatcher_get_dirs ps d c, fun c => prefixMatcher_get_files ps d c⟩
    simp [PrefixMatcher.visit, h]
  · rintro q d b hq rfl
    by_cases hm : (PrefixMatcher.new ps).matches d = true
    · constructor <;> simp [PrefixMatcher.visit, hm, Visit.admitsDir, Visit.admitsFile]
    · rw [Bool.not_eq_true] at hm
      have hv : (PrefixMatcher.new ps).visit d =
          Visit.some (VisitDirs.set ((PrefixMatcher.new ps).dirs.get_dirs d))
            (VisitFiles.set ((PrefixMatcher.new ps).dirs.get_files d)) := by
        simp [PrefixMatcher.visit, hm]
      rw [hv]
      constructor
      · simp only [Visit.admitsDir, VisitDirs.admits, decide_eq_true_eq]
        exact (prefixMatcher_get_dirs ps d b).mpr ⟨d ++ [b], hq, List.prefix_refl _⟩
      · simp only [Visit.admitsFile, VisitFiles.admits, decide_eq_true_eq]
        exact (prefixMatcher_get_files ps d b).mpr ⟨d ++ [b], hq, by simp, rfl⟩

/-- C5: inside a matched subtree a `PrefixMatcher` never consults explicit
component sets again: `visit` answers `AllRecursively` on the matched
directory and on every descendant of it; the hypothesis records the nested
prefix situation of the claim. -/
theorem prefixMatcher_nested_all_recursively (ps : List RepoPath)
    (q1 q2 : RepoPath) (_hq1 : q1 ∈ ps) (_hq2 : q2 ∈ ps) (_hne : q1 ≠ q2) (_hnest : q1 <+: q2)
    (d d' : RepoPath) (hm : (PrefixMatcher.new ps).matches d = true) (hdd : d <+: d') :
    (PrefixMatcher.new ps).visit d = Visit.allRecursively ∧
    (PrefixMatcher.new ps).visit d' = Visit.allRecursively := by
  have hm' := prefixMatcher_matches_mono hm hdd
  exact ⟨by simp [PrefixMatcher.visit, hm], by simp [PrefixMatcher.visit, hm']⟩

/-- C5 witness: the nested prefixes of the repository's own unit test. -/
theorem prefixMatcher_nested_all_recursively_witness :
    (PrefixMatcher.new [["foo"], ["foo", "bar", "baz"]]).visit ["foo"] = Visit.allRecursively ∧
    (PrefixMatcher.new [["foo"], ["foo", "bar", "baz"]]).visit ["foo", "bar", "baz"]
      = Visit.allRecursively :=
  prefixMatcher_nested_all_recursively [["foo"], ["foo", "bar", "baz"]]
    ["foo"] ["foo", "bar", "baz"] (by decide) (by decide) (by decide) (by decide)
    ["foo"] ["foo", "bar", "baz"] (by decide) (by decide)

theorem walk_nothing (cur : RepoPath) (p : List String) :
    walkIncluded NothingMatcher.visit cur p = false := by
  cases p with
  | nil => rfl
  | cons c rest =>
    cases rest with
    | nil => simp [walkIncluded, NothingMatcher.visit, Visit.nothing, VisitFiles.admits]
    | cons d rest' => simp [walkIncluded, NothingMatcher.visit, Visit.nothing, VisitDirs.admits]

theorem walk_everything (cur : RepoPath) (p : List String) (hp : p ≠ []) :
    walkIncluded EverythingMatcher.visit cur p = true := by
  cases p with
  | nil => exact absurd rfl hp
  | cons c rest =>
    cases rest with
    | nil => simp [walkIncluded, EverythingMatcher.visit]
    | cons d rest' => simp [walkIncluded, EverythingMatcher.visit]

theorem filesMatcher_new_files_eq {files : List RepoPath} {fm : FilesMatcher}
    (hfm : FilesMatcher.new files = Option.some fm) : fm.files = files := by
  unfold FilesMatcher.new at hfm
  cases hfold : files.foldl (fun acc f => acc.bind (fun s => Dirs.add_file s f))
      (Option.some Dirs.new) with
  | none =>
    rw [hfold] at hfm
    cases hfm
  | some d =>
    rw [hfold] at hfm
    cases hfm
    rfl

theorem walk_files (files : List RepoPath) (fm : FilesMatcher)
    (hfm : FilesMatcher.new files = Option.some fm) (p : List String) :
    ∀ cur : RepoPath, p ≠ [] →
    (walkIncluded fm.visit cur p = true ↔ (cur ++ p) ∈ files) := by
  have hall : ∀ f ∈ files, f ≠ [] := by
    intro f hf hfe
    have hnone : FilesMatcher.new files = none :=
      (filesMatcher_new_eq_none_iff files).mpr (hfe ▸ hf)
    rw [hnone] at hfm
    cases hfm
  obtain ⟨fm', hsome, hfiles, D', F'⟩ := filesMatcher_new_spec files hall
  have hfmeq : fm = fm' := by
    rw [hfm] at hsome
    exact Option.some_inj.mp hsome
  subst hfmeq
  induction p with
  | nil =>
    intro cur hne
    exact absurd rfl hne
  | cons c rest ih =>
    intro cur _
    cases rest with
    | nil =>
      simp only [walkIncluded, FilesMatcher.visit, VisitFiles.admits, decide_eq_true_eq]
      rw [F' cur c]
      constructor
      · rintro ⟨f, hfm', rfl⟩
        exact hfm'
      · intro hmem
        exact ⟨cur ++ [c], hmem, rfl⟩
    | cons d rest' =>
      simp only [walkIncluded, FilesMatcher.visit, VisitDirs.admits, Bool.and_eq_true,
        decide_eq_true_eq]
      rw [D' cur c, ih (cur ++ [c]) (by simp)]
      have hassoc : cur ++ [c] ++ d :: rest' = cur ++ c :: d :: rest' := by simp
      rw [hassoc]
      constructor
      · rintro ⟨-, hmem⟩
        exact hmem
      · intro hmem
        refine ⟨⟨cur ++ c :: d :: rest', hmem, ?_, ?_⟩, hmem⟩
        · rw [← hassoc]
          exact List.prefix_append _ _
        · intro h
          have := congrArg List.length h
          simp at this

theorem walk_prefixes_matches (ps : List RepoPath) (p : List String) :
    ∀ cur : RepoPath, p ≠ [] →
    (walkIncluded (PrefixMatcher.new ps).visit cur p = true ↔
      (PrefixMatcher.new ps).matches (cur ++ p) = true) := by
  induction p with
  | nil =>
    intro cur hne
    exact absurd rfl hne
  | cons c rest ih =>
    intro cur _
    by_cases hm : (PrefixMatcher.new ps).matches cur = true
    · have hv : (PrefixMatcher.new ps).visit cur = Visit.allRecursively := by
        simp [PrefixMatcher.visit, hm]
      have hm' : (PrefixMatcher.new ps).matches (cur ++ c :: rest) = true :=
        prefixMatcher_matches_mono hm ⟨c :: rest, rfl⟩
      cases rest with
      | nil => simp [walkIncluded, hv, hm']
      | cons d rest' => simp [walkIncluded, hv, hm']
    · rw [Bool.not_eq_true] at hm
      have hv : (PrefixMatcher.new ps).visit cur =
          Visit.some (VisitDirs.set ((PrefixMatcher.new ps).dirs.get_dirs cur))
            (VisitFiles.set ((PrefixMatcher.new ps).dirs.get_files cur)) := by
        simp [PrefixMatcher.visit, hm]
      cases rest with
      | nil =>
        simp only [walkIncluded, hv, VisitFiles.admits, decide_eq_true_eq]
        rw [prefixMatcher_get_files, prefixMatcher_matches_iff]
        constructor
        · rintro ⟨q, hqm, -, rfl⟩
          exact ⟨cur ++ [c], hqm, List.prefix_refl _⟩
        · rintro ⟨q, hqm, hq⟩
          rcases prefix_of_concat hq with hq' | rfl
          · exact absurd ((prefixMatcher_matches_iff ps cur).mpr ⟨q, hqm, hq'⟩)
              (by rw [hm]; simp)
          · exact ⟨cur ++ [c], hqm, by simp, rfl⟩
      | cons d rest' =>
        simp only [walkIncluded, hv, VisitDirs.admits, Bool.and_eq_true, decide_eq_true_eq]
        rw [prefixMatcher_get_dirs, ih (cur ++ [c]) (by simp)]
        have hassoc : cur ++ [c] ++ d :: rest' = cur ++ c :: d :: rest' := by simp
        rw [hassoc]
        constructor
        · rintro ⟨-, hmm⟩
          exact hmm
        · intro hmm
          refine ⟨?_, hmm⟩
          obtain ⟨q, hqm, hq⟩ := (prefixMatcher_matches_iff ps _).mp hmm
          have hcp : cur ++ [c] <+: cur ++ c :: d :: rest' := by
            rw [← hassoc]
            exact List.prefix_append _ _
          rcases List.prefix_or_prefix_of_prefix hq hcp with hqc | hcq
          · rcases prefix_of_concat hqc with hq' | rfl
            · exact absurd ((prefixMatcher_matches_iff ps cur).mpr ⟨q, hqm, hq'⟩)
                (by rw [hm]; simp)
            · exact ⟨cur ++ [c], hqm, List.prefix_refl _⟩
          · exact ⟨q, hqm, hcq⟩

/-- C1: for each of the four matcher implementations, `matches p` agrees with
the exhaustive `visit`-driven walk from the root reaching and including the
(non-root) path `p`. -/
theorem matcher_walk_agreement (p : RepoPath) (hp : p ≠ []) :
    (walkIncluded NothingMatcher.visit [] p = NothingMatcher.matches p) ∧
    (walkIncluded EverythingMatcher.visit [] p = EverythingMatcher.matches p) ∧
    (∀ files fm, FilesMatcher.new files = Option.some fm →
      walkIncluded fm.visit [] p = fm.matches p) ∧
    (∀ ps, walkIncluded (PrefixMatcher.new ps).visit [] p
      = (PrefixMatcher.new ps).matches p) := by
  refine ⟨?_, ?_, ?_, ?_⟩
  · rw [walk_nothing]
    rfl
  · rw [walk_everything [] p hp]
    rfl
  · intro files fm hfm
    apply bool_eq_of_iff
    rw [walk_files files fm hfm p [] hp]
    unfold FilesMatcher.matches
    rw [decide_eq_true_eq, filesMatcher_new_files_eq hfm]
    simp
  · intro ps
    apply bool_eq_of_iff
    rw [walk_prefixes_matches ps p [] hp]
    simp

/-- C1 witness: the walk agrees with `matches` on the concrete path
`foo/bar/baz` for all four matchers built from the unit tests' inputs. -/
theorem matcher_walk_agreement_witness :
    walkIncluded NothingMatcher.visit [] ["foo", "bar", "baz"]
        = NothingMatcher.matches ["foo", "bar", "baz"] ∧
    walkIncluded EverythingMatcher.visit [] ["foo", "bar", "baz"]
        = EverythingMatcher.matches ["foo", "bar", "baz"] :=
  ⟨(matcher_walk_agreement ["foo", "bar", "baz"] (by decide)).1,
    (matcher_walk_agreement ["foo", "bar", "baz"] (by decide)).2.1⟩

/-- C4: a `FilesMatcher` matches exactly the listed files; `visit` lists the
subdirectories that contain a listed file and the listed files directly in the
directory; a directory containing no listed file below it gets the empty
visit. -/
theorem filesMatcher_matches_visit_spec (files : List RepoPath) (fm : FilesMatcher)
    (hfm : FilesMatcher.new files = Option.some fm) :
    (∀ p, fm.matches p = true ↔ p ∈ files) ∧
    (∀ d, ∃ ds fs, fm.visit d = Visit.some (VisitDirs.set ds) (VisitFiles.set fs) ∧
      (∀ c, c ∈ ds ↔ ∃ f ∈ files, d ++ [c] <+: f ∧ d ++ [c] ≠ f) ∧
      (∀ c, c ∈ fs ↔ ∃ f ∈ files, f = d ++ [c])) ∧
    (∀ d, (∀ f ∈ files, ¬(d <+: f ∧ d ≠ f)) → fm.visit d = Visit.nothing) := by
  have hall : ∀ f ∈ files, f ≠ [] := by
    intro f hf hfe
    have hnone : FilesMatcher.new files = none :=
      (filesMatcher_new_eq_none_iff files).mpr (hfe ▸ hf)
    rw [hnone] at hfm
    cases hfm
  obtain ⟨fm', hsome, hfiles, D', F'⟩ := filesMatcher_new_spec files hall
  have hfmeq : fm = fm' := by
    rw [hfm] at hsome
    exact Option.some_inj.mp hsome
  subst hfmeq
  refine ⟨?_, ?_, ?_⟩
  · intro p
    unfold FilesMatcher.matches
    rw [decide_eq_true_eq, hfiles]
  · intro d
    exact ⟨fm.dirs.get_dirs d, fm.dirs.get_files d, rfl, D' d, F' d⟩
  · intro d hd
    have hds : fm.dirs.get_dirs d = ∅ := by
      rw [Finset.eq_empty_iff_forall_not_mem]
      intro c hc
      obtain ⟨f, hfm', hpre, hne⟩ := (D' d c).mp hc
      refine hd f hfm' ⟨(List.prefix_append d [c]).trans hpre, ?_⟩
      intro hdf
      have h1 := List.IsPrefix.length_le hpre
      rw [← hdf] at h1
      simp at h1
    have hfs : fm.dirs.get_files d = ∅ := by
      rw [Finset.eq_empty_iff_forall_not_mem]
      intro c hc
      obtain ⟨f, hfm', hfe⟩ := (F' d c).mp hc
      refine hd f hfm' ⟨hfe ▸ List.prefix_append d [c], ?_⟩
      intro hdf
      rw [hfe] at hdf
      have := congrArg List.length hdf
      simp at this
    unfold FilesMatcher.visit
    rw [hds, hfs]
    rfl

/-- C4 witness: the matches-iff-membership part at the concrete one-file set
of the repository's unit tests. -/
theorem filesMatcher_matches_visit_spec_witness :
    ∃ fm, FilesMatcher.new [["dir1", "file1"]] = Option.some fm ∧
      (fm.matches ["dir1", "file1"] = true ↔ ["dir1", "file1"] ∈ [["dir1", "file1"]]) := by
  obtain ⟨fm, hfm⟩ : ∃ fm, FilesMatcher.new [["dir1", "file1"]] = Option.some fm := ⟨_, rfl⟩
  exact ⟨fm, hfm,
    (filesMatcher_matches_visit_spec [["dir1", "file1"]] fm hfm).1 ["dir1", "file1"]⟩

/-- C10: `FilesMatcher::new` hits the `add_file` panic exactly when the root
path is listed; on a root-free list construction succeeds (and `matches` and
`visit` are total functions with no panic site). -/
theorem filesMatcher_new_root_panics (files : List RepoPath) :
    (FilesMatcher.new files = none ↔ [] ∈ files) ∧
    ((∀ f ∈ files, f ≠ []) → ∃ fm, FilesMatcher.new files = Option.some fm) := by
  refine ⟨filesMatcher_new_eq_none_iff files, ?_⟩
  intro h
  obtain ⟨fm, hsome, -, -, -⟩ := filesMatcher_new_spec files h
  exact ⟨fm, hsome⟩

/-! Working-copy engine model. The engine's implementation (`working_copy.rs`)
is not among the source files — only its tests are — so the definitions below
are modelled from the spec (checkout engine, snapshot engine, testable
properties) and checked against the behaviour the tests pin down. Object ids
are content addresses: a blob id is represented by the content itself and a
tree id by the tree's entry list, so id equality is content equality. -/

/-- Modelled from the spec: a tree object, its entries listed as
(path, file content) pairs; content addressing makes tree-id equality
entry-list equality. -/
abbrev Tree := List (RepoPath × String)

/-- Modelled from the spec: a per-file record of the file-state index — size,
last-modified timestamp, and the object id (here: content) last known to
correspond to the on-disk content. -/
structure FileState where
  size : Nat
  mtime : Nat
  id : String
deriving DecidableEq

/-- Modelled from the spec: what the filesystem holds at a path — content and
last-modified timestamp. -/
structure DiskFile where
  content : String
  mtime : Nat
deriving DecidableEq

/-- Modelled from the spec: the working copy as the snapshot engine sees it —
the on-disk listing and the file-state index (`none` = untracked). -/
structure WcState where
  disk : List (RepoPath × DiskFile)
  fileStates : RepoPath → Option FileState

/-- Modelled from the spec: `check_out` into a clean working copy rejects
invalid paths (the root path, and any path colliding with `.git`) before any
side effect, then materialises exactly the tree's entries on disk and records
a file state for each, stamped with the checkout time `t`. -/
def checkout (T : Tree) (t : Nat) : Option WcState :=
  if T.any (fun e => decide (e.1.head? = Option.some ".git") || e.1.isEmpty) then none
  else Option.some
    { disk := T.map (fun e => (e.1, ⟨e.2, t⟩)),
      fileStates := fun p =>
        (T.find? (fun e => decide (e.1 = p))).map (fun e => ⟨e.2.length, t, e.2⟩) }

/-- Modelled from the spec: the snapshot engine's per-file decision. A tracked
file whose recorded size and mtime match the stat and whose mtime is strictly
earlier than the index's own last-write time `tIdx` is unchanged and its
recorded object id is reused without reading the file; otherwise (added,
modified or racy) the content is re-read and hashed. -/
def snapContent (fs? : Option FileState) (df : DiskFile) (tIdx : Nat) : String :=
  match fs? with
  | none => df.content
  | Option.some fs =>
    if fs.size = df.content.length ∧ fs.mtime = df.mtime ∧ df.mtime < tIdx then fs.id
    else df.content

/-- Modelled from the spec: `write_tree`, the snapshot traversal. `.git` is
unconditionally skipped, whether a file or a directory (any path whose first
component is `.git`); an untracked entry matched by the ignore predicate is
excluded; a tracked entry is kept even when ignored; each kept entry is
emitted with `snapContent`. The sparse matcher is the everything-matcher, as
in the tests the claims cite. -/
def write_tree (disk : List (RepoPath × DiskFile)) (fileStates : RepoPath → Option FileState)
    (ignored : RepoPath → Bool) (tIdx : Nat) : Tree :=
  (disk.filter (fun e => !(decide (e.1.head? = Option.some ".git")) &&
      ((fileStates e.1).isSome || !(ignored e.1)))).map
    (fun e => (e.1, snapContent (fileStates e.1) e.2 tIdx))

/-- Modelled from the spec: the file-state index after a snapshot — exactly
the paths of the emitted tree, each freshly recorded (stamped `t'`): deleted
paths are dropped, untracked ignored paths are not added, tracked paths stay
tracked. -/
def snapshotStates (disk : List (RepoPath × DiskFile))
    (fileStates : RepoPath → Option FileState) (ignored : RepoPath → Bool)
    (tIdx t' : Nat) : RepoPath → Option FileState :=
  fun p => ((write_tree disk fileStates ignored tIdx).find? (fun e => decide (e.1 = p))).map
    (fun e => ⟨e.2.length, t', e.2⟩)

/-- Modelled from the spec and `test_reset`: `reset(T)` makes the recorded
state correspond to the target tree without touching the filesystem. -/
def reset (st : WcState) (T : Tree) (t : Nat) : WcState :=
  { st with fileStates := fun p =>
      (T.find? (fun e => decide (e.1 = p))).map (fun e => ⟨e.2.length, t, e.2⟩) }

theorem map_mem_id {α : Type} (l : List α) (f : α → α) (h : ∀ x ∈ l, f x = x) :
    l.map f = l := by
  induction l with
  | nil => rfl
  | cons x rest ih =>
    rw [List.map_cons, h x (by simp), ih (fun y hy => h y (by simp [hy]))]

theorem find_of_nodup_keys {T : Tree} (hnd : (T.map Prod.fst).Nodup) {p : RepoPath}
    {c : String} (hmem : (p, c) ∈ T) :
    T.find? (fun e => decide (e.1 = p)) = Option.some (p, c) := by
  induction T with
  | nil => cases hmem
  | cons e rest ih =>
    rw [List.map_cons, List.nodup_cons] at hnd
    by_cases he : e.1 = p
    · have hec : e = (p, c) := by
        rcases List.mem_cons.mp hmem with h | h
        · exact h.symm
        · exact absurd (he ▸ List.mem_map_of_mem Prod.fst h) hnd.1
      rw [List.find?_cons_of_pos _ (by simp [he]), hec]
    · have hmem' : (p, c) ∈ rest := by
        rcases List.mem_cons.mp hmem with h | h
        · exact absurd (congrArg Prod.fst h.symm) he
        · exact h
      rw [List.find?_cons_of_neg _ (by simp [he])]
      exact ih hnd.2 hmem'

/-- C6: checking out a tree with well-formed (distinct) paths and snapshotting
with no intervening modification and an empty ignore set emits exactly the
same tree again. -/
theorem snapshot_after_checkout_id (T : Tree) (t tIdx : Nat) (st : WcState)
    (hnd : (T.map Prod.fst).Nodup) (hco : checkout T t = Option.some st) :
    write_tree st.disk st.fileStates (fun _ => false) tIdx = T := by
  by_cases hA : T.any (fun e => decide (e.1.head? = Option.some ".git") || e.1.isEmpty) = true
  · unfold checkout at hco
    rw [if_pos hA] at hco
    cases hco
  · unfold checkout at hco
    rw [if_neg hA] at hco
    have hguard : ∀ e ∈ T, ¬(e.1.head? = Option.some ".git") := by
      intro e he hgit
      exact hA (List.any_eq_true.mpr ⟨e, he, by simp [hgit]⟩)
    cases hco
    unfold write_tree
    have hfilter :
        (T.map (fun e => (e.1, (⟨e.2, t⟩ : DiskFile)))).filter
          (fun e => !(decide (e.1.head? = Option.some ".git")) &&
            (((T.find? (fun e' => decide (e'.1 = e.1))).map
                (fun e' => (⟨e'.2.length, t, e'.2⟩ : FileState))).isSome ||
              !(false : Bool)))
          = T.map (fun e => (e.1, (⟨e.2, t⟩ : DiskFile))) := by
      rw [List.filter_eq_self]
      intro x hx
      obtain ⟨e, he, rfl⟩ := List.mem_map.mp hx
      simp [hguard e he]
    rw [hfilter, List.map_map]
    apply map_mem_id
    intro e he
    have hfind : T.find? (fun e' => decide (e'.1 = e.1)) = Option.some (e.1, e.2) :=
      find_of_nodup_keys hnd (by simpa using he)
    have hsnap : snapContent (Option.some (⟨e.2.length, t, e.2⟩ : FileState))
        (⟨e.2, t⟩ : DiskFile) tIdx = e.2 := by
      show (if (⟨e.2.length, t, e.2⟩ : FileState).size = e.2.length ∧
          (⟨e.2.length, t, e.2⟩ : FileState).mtime = t ∧ t < tIdx
        then (⟨e.2.length, t, e.2⟩ : FileState).id else e.2) = e.2
      split <;> rfl
    simp only [Function.comp_apply, hfind, Option.map_some', hsnap]

/-- C6 witness: round-trip on a one-file tree. -/
theorem snapshot_after_checkout_id_witness :
    ∃ st, checkout [(["file"], "contents")] 0 = Option.some st ∧
      write_tree st.disk st.fileStates (fun _ => false) 7 = [(["file"], "contents")] := by
  have hco : checkout [(["file"], "contents")] 0 = Option.some
      ⟨[(["file"], ⟨"contents", 0⟩)],
        fun p => (([(["file"], "contents")] : Tree).find? (fun e => decide (e.1 = p))).map
          (fun e => ⟨e.2.length, 0, e.2⟩)⟩ := rfl
  exact ⟨_, hco, snapshot_after_checkout_id [(["file"], "contents")] 0 7 _ (by decide) hco⟩

/-- C7: no tree produced by the snapshot engine contains a path whose first
component is `.git`, and a workspace whose entries all lie under `.git`
snapshots to the empty tree. -/
theorem snapshot_excludes_dotgit (disk : List (RepoPath × DiskFile))
    (fileStates : RepoPath → Option FileState) (ignored : RepoPath → Bool) (tIdx : Nat) :
    (∀ e ∈ write_tree disk fileStates ignored tIdx, ¬(e.1.head? = Option.some ".git")) ∧
    ((∀ e ∈ disk, e.1.head? = Option.some ".git") →
      write_tree disk fileStates ignored tIdx = []) := by
  constructor
  · intro e he
    unfold write_tree at he
    obtain ⟨e0, he0, rfl⟩ := List.mem_map.mp he
    have := (List.mem_filter.mp he0).2
    simp only [Bool.and_eq_true, Bool.not_eq_true', decide_eq_false_iff_not] at this
    exact this.1
  · intro hall
    unfold write_tree
    rw [List.filter_eq_nil_iff.mpr ?_, List.map_nil]
    intro e he
    simp [hall e he]

/-- C8: a tracked path still on disk is kept in the emitted tree and in the
updated index even when ignored; an untracked ignored path enters neither; and
resetting to a tree containing the path re-tracks it regardless of the ignore
predicate. -/
theorem ignore_does_not_untrack (disk : List (RepoPath × DiskFile))
    (fileStates : RepoPath → Option FileState) (ignored : RepoPath → Bool)
    (tIdx t' : Nat) (p : RepoPath) :
    ((∃ df, (p, df) ∈ disk) → (fileStates p).isSome → ¬(p.head? = Option.some ".git") →
      (∃ c, (p, c) ∈ write_tree disk fileStates ignored tIdx) ∧
      (snapshotStates disk fileStates ignored tIdx t' p).isSome) ∧
    (fileStates p = none → ignored p = true →
      (∀ c, (p, c) ∉ write_tree disk fileStates ignored tIdx) ∧
      snapshotStates disk fileStates ignored tIdx t' p = none) ∧
    (∀ st T t, (∃ c, (p, c) ∈ T) → ((reset st T t).fileStates p).isSome) := by
  refine ⟨?_, ?_, ?_⟩
  · rintro ⟨df, hdf⟩ hsome hgit
    have hkeep : (p, df) ∈ disk.filter (fun e => !(decide (e.1.head? = Option.some ".git")) &&
        ((fileStates e.1).isSome || !(ignored e.1))) := by
      rw [List.mem_filter]
      exact ⟨hdf, by simp [hgit, hsome]⟩
    have hmem : (p, snapContent (fileStates p) df tIdx) ∈
        write_tree disk fileStates ignored tIdx := by
      unfold write_tree
      exact List.mem_map.mpr ⟨(p, df), hkeep, rfl⟩
    refine ⟨⟨_, hmem⟩, ?_⟩
    unfold snapshotStates
    rw [Option.isSome_map']
    exact List.find?_isSome.mpr ⟨_, hmem, by simp⟩
  · intro hnone hign
    have hout : ∀ c, (p, c) ∉ write_tree disk fileStates ignored tIdx := by
      intro c hc
      unfold write_tree at hc
      obtain ⟨e0, he0, heq⟩ := List.mem_map.mp hc
      have hpred := (List.mem_filter.mp he0).2
      have hp0 : e0.1 = p := congrArg Prod.fst heq
      rw [hp0, hnone, hign] at hpred
      simp at hpred
    refine ⟨hout, ?_⟩
    unfold snapshotStates
    rw [Option.map_eq_none', List.find?_eq_none]
    intro e he
    simp only [decide_eq_true_eq]
    intro hep
    exact hout e.2 (by rw [← hep]; exact he)
  · rintro st T t ⟨c, hc⟩
    unfold reset
    rw [Option.isSome_map']
    exact List.find?_isSome.mpr ⟨(p, c), hc, by simp⟩

/-- C9: a racy file — one whose mtime is not strictly earlier than the index's
last write — is re-read by the snapshot rather than trusted from the cache, so
the emitted entry always carries the current content; hence two
write-then-snapshot cycles on one racy file with different contents produce
different tree ids. -/
theorem racy_snapshot_rereads :
    (∀ (fs? : Option FileState) (df : DiskFile) (tIdx : Nat), tIdx ≤ df.mtime →
      snapContent fs? df tIdx = df.content) ∧
    (∀ (p : RepoPath) (c1 c2 : String) (m1 m2 tIdx1 tIdx2 : Nat)
      (fs1 fs2 : RepoPath → Option FileState) (ign : RepoPath → Bool),
      tIdx1 ≤ m1 → tIdx2 ≤ m2 → c1 ≠ c2 → ¬(p.head? = Option.some ".git") →
      ((fs1 p).isSome ∨ ign p = false) → ((fs2 p).isSome ∨ ign p = false) →
      write_tree [(p, ⟨c1, m1⟩)] fs1 ign tIdx1 ≠ write_tree [(p, ⟨c2, m2⟩)] fs2 ign tIdx2) := by
  have hsnap : ∀ (fs? : Option FileState) (df : DiskFile) (tIdx : Nat), tIdx ≤ df.mtime →
      snapContent fs? df tIdx = df.content := by
    intro fs? df tIdx hle
    cases fs? with
    | none => rfl
    | some fs =>
      show (if fs.size = df.content.length ∧ fs.mtime = df.mtime ∧ df.mtime < tIdx
        then fs.id else df.content) = df.content
      rw [if_neg]
      rintro ⟨-, -, hlt⟩
      exact absurd hle (Nat.not_le_of_lt hlt)
  refine ⟨hsnap, ?_⟩
  intro p c1 c2 m1 m2 tIdx1 tIdx2 fs1 fs2 ign h1 h2 hne hgit hk1 hk2
  have hw : ∀ (c : String) (m tIdx : Nat) (fs : RepoPath → Option FileState),
      tIdx ≤ m → ((fs p).isSome ∨ ign p = false) →
      write_tree [(p, ⟨c, m⟩)] fs ign tIdx = [(p, c)] := by
    intro c m tIdx fs hle hk
    have hpred : (!(decide (p.head? = Option.some ".git")) &&
        ((fs p).isSome || !(ign p))) = true := by
      rcases hk with hk | hk <;> simp [hgit, hk]
    have hfe : List.filter (fun e => !(decide (e.1.head? = Option.some ".git")) &&
          ((fs e.1).isSome || !(ign e.1))) [(p, (⟨c, m⟩ : DiskFile))]
        = [(p, (⟨c, m⟩ : DiskFile))] := by
      rw [List.filter_eq_self]
      intro a ha
      rw [List.mem_singleton] at ha
      subst ha
      exact hpred
    unfold write_tree
    rw [hfe, List.map_cons, List.map_nil, hsnap (fs p) ⟨c, m⟩ tIdx hle]
  rw [hw c1 m1 tIdx1 fs1 h1 hk1, hw c2 m2 tIdx2 fs2 h2 hk2]
  simp [hne]

end Jj
